import Mathlib

/-!
Verification of the convex-hull module in `src/ConvexHull/drawingwidget.cpp`
(class `DrawingWidget`).

Embedding conventions:

* The C++ code computes with `double` coordinates.  All coordinates appearing
  in the program and in the test inputs are small dyadic or integer values on
  which the C++ `double` arithmetic is exact, so coordinates are embedded as
  exact rational numbers.  To keep every definition kernel-computable we use
  an unnormalised fraction type `Q` (integer numerator, positive natural
  denominator, no gcd reduction); comparisons are the usual cross-multiplied
  ones, which agree with the rational order because denominators are positive
  by construction.
* `std::sort` with a strict comparator `comp` is embedded as a stable
  top-down merge sort (contiguous split at `(n+1)/2`) driven by
  `le a b := !comp b a`.  The C++ standard leaves the order of tied elements
  (and the behaviour of `std::sort` in general) unspecified; the stable merge
  sort is the refinement used throughout this development.
* `std::atan2`-based angle comparison in `orderHullPoints` is embedded as the
  exact angular order on `(-pi, pi]`: vectors are classified into the four
  atan2 bands (`y < 0`, `y = 0 and x >= 0` including the zero vector, `y > 0`,
  `y = 0 and x < 0`), bands compare in that order, and inside an open
  half-plane band two vectors compare by the sign of their cross product.
* `qint64` iteration counters are embedded as `Int` (all counts here are far
  below `2^63`, so no wrap-around can occur).
* The Qt widget state (`points`, `hullFast`, `hullSlow`, `iterationsFast`,
  `iterationsSlow`) is the record `WState`; painting and event plumbing are
  out of scope per the specification.
-/

namespace ConvexHull

/-- Exact rational number as an unnormalised fraction `num / den`.
All constructions in this file keep `den` positive. -/
structure Q where
  num : Int
  den : Nat

instance (n : Nat) : OfNat Q n := ⟨⟨n, 1⟩⟩

instance : Neg Q := ⟨fun a => ⟨-a.num, a.den⟩⟩

instance : Add Q := ⟨fun a b => ⟨a.num * b.den + b.num * a.den, a.den * b.den⟩⟩

instance : Sub Q := ⟨fun a b => ⟨a.num * b.den - b.num * a.den, a.den * b.den⟩⟩

instance : Mul Q := ⟨fun a b => ⟨a.num * b.num, a.den * b.den⟩⟩

instance : LT Q := ⟨fun a b => a.num * b.den < b.num * a.den⟩

instance : LE Q := ⟨fun a b => a.num * b.den ≤ b.num * a.den⟩

instance (a b : Q) : Decidable (a < b) :=
  inferInstanceAs (Decidable (a.num * b.den < b.num * a.den))

instance (a b : Q) : Decidable (a ≤ b) :=
  inferInstanceAs (Decidable (a.num * b.den ≤ b.num * a.den))

/-- Value equality of the two fractions (`a.num/a.den = b.num/b.den`),
embedding `==` on `double`. -/
def Q.eqv (a b : Q) : Prop := a.num * b.den = b.num * a.den

instance (a b : Q) : Decidable (Q.eqv a b) :=
  inferInstanceAs (Decidable (a.num * b.den = b.num * a.den))

/-- Absolute value, embedding `std::abs` on `double`. -/
def Q.abs (a : Q) : Q := ⟨|a.num|, a.den⟩

/-- Division of a fraction by a positive natural number (used for the
centroid's arithmetic mean). -/
def Q.divNat (a : Q) (m : Nat) : Q := ⟨a.num, a.den * m⟩

/-- A 2D point, embedding `QPointF`. -/
structure Pt where
  x : Q
  y : Q

/-- The fixed collinearity epsilon `1e-9` used by both algorithms. -/
def eps : Q := ⟨1, 1000000000⟩

/-- `DrawingWidget::cross(o, a, b)`: twice the signed area of triangle
`o -> a -> b`. -/
def cross (o a b : Pt) : Q :=
  (a.x - o.x) * (b.y - o.y) - (a.y - o.y) * (b.x - o.x)

/-- `DrawingWidget::crossVec(a, b)`: 2D cross product of two vectors. -/
def crossVec (a b : Pt) : Q := a.x * b.y - a.y * b.x

/-- `DrawingWidget::dist2(a, b)`: squared distance. -/
def dist2 (a b : Pt) : Q :=
  (a.x - b.x) * (a.x - b.x) + (a.y - b.y) * (a.y - b.y)

/-- Indexing `points[i]`; the C++ code only indexes in range, the default
value only totalises the function. -/
def nth (pts : List Pt) (i : Nat) : Pt := pts.getD i ⟨0, 0⟩

/-! ### Stable merge sort

Fuel-based so that every definition reduces in the kernel.  The fuel is the
list length, which is always sufficient; the fuel-0 fallbacks are never
reached.  The split is contiguous at `(n+1)/2`, the merge takes from the left
list while `le` holds, so the sort is stable. -/

/-- Merge two lists, taking from the left while `le` holds. -/
def mergeFuel (le : α → α → Bool) : Nat → List α → List α → List α
  | 0, xs, ys => xs ++ ys
  | _ + 1, [], ys => ys
  | _ + 1, x :: xs, [] => x :: xs
  | f + 1, x :: xs, y :: ys =>
    if le x y then x :: mergeFuel le f xs (y :: ys)
    else y :: mergeFuel le f (x :: xs) ys

/-- Merge with sufficient fuel. -/
def mergeL (le : α → α → Bool) (xs ys : List α) : List α :=
  mergeFuel le (xs.length + ys.length) xs ys

/-- Stable top-down merge sort with explicit fuel. -/
def msortFuel (le : α → α → Bool) : Nat → List α → List α
  | 0, l => l
  | _ + 1, [] => []
  | _ + 1, [a] => [a]
  | f + 1, a :: b :: xs =>
    let l := a :: b :: xs
    let m := (l.length + 1) / 2
    mergeL le (msortFuel le f (l.take m)) (msortFuel le f (l.drop m))

/-- Stable merge sort, the embedding of `std::sort`. -/
def msort (le : α → α → Bool) (l : List α) : List α := msortFuel le l.length l

/-- Comparison count of `mergeFuel`, weighted by the per-comparison cost
`cost x y` of evaluating `le x y` (used for the iteration counters). -/
def mergeCntFuel (le : α → α → Bool) (cost : α → α → Nat) :
    Nat → List α → List α → Nat
  | 0, _, _ => 0
  | _ + 1, [], _ => 0
  | _ + 1, _ :: _, [] => 0
  | f + 1, x :: xs, y :: ys =>
    cost x y +
      (if le x y then mergeCntFuel le cost f xs (y :: ys)
       else mergeCntFuel le cost f (x :: xs) ys)

/-- Comparison count of `msortFuel` (counting mirror of the sort). -/
def msortCntFuel (le : α → α → Bool) (cost : α → α → Nat) :
    Nat → List α → Nat
  | 0, _ => 0
  | _ + 1, [] => 0
  | _ + 1, [_] => 0
  | f + 1, a :: b :: xs =>
    let l := a :: b :: xs
    let m := (l.length + 1) / 2
    msortCntFuel le cost f (l.take m) + msortCntFuel le cost f (l.drop m) +
      mergeCntFuel le cost
        ((msortFuel le f (l.take m)).length + (msortFuel le f (l.drop m)).length)
        (msortFuel le f (l.take m)) (msortFuel le f (l.drop m))

/-! ### Fast hull (`DrawingWidget::computeGrahamScan`) -/

/-- One step of the pivot search: take index `i` if its point is lower, or at
equal height further left, than the current pivot's point. -/
def pivotStep (pts : List Pt) (piv i : Nat) : Nat :=
  if (nth pts i).y < (nth pts piv).y ∨
      (Q.eqv (nth pts i).y (nth pts piv).y ∧ (nth pts i).x < (nth pts piv).x)
  then i else piv

/-- Pivot selection: lowest `y`, ties broken by lowest `x`
(lines 141-146 of the source). -/
def pivotIdx (pts : List Pt) : Nat :=
  (List.range' 1 (pts.length - 1)).foldl (pivotStep pts) 0

/-- The sorting comparator of the angular sort (the lambda passed to
`std::sort`, lines 150-162): the pivot is pinned first, otherwise compare by
cross product of the vectors from the pivot, with an epsilon collinearity
tie broken by squared distance. -/
def compFn (pts : List Pt) (a b : Nat) : Bool :=
  let piv := pivotIdx pts
  if a = piv then true
  else if b = piv then false
  else
    let p0 := nth pts piv
    let va : Pt := ⟨(nth pts a).x - p0.x, (nth pts a).y - p0.y⟩
    let vb : Pt := ⟨(nth pts b).x - p0.x, (nth pts b).y - p0.y⟩
    let cr := crossVec va vb
    if cr.abs < eps then decide (dist2 p0 (nth pts a) < dist2 p0 (nth pts b))
    else decide ((0 : Q) < cr)

/-- `le` relation driving the stable merge sort: `a` may precede `b` iff the
strict comparator does not place `b` before `a`. -/
def sortLe (pts : List Pt) (a b : Nat) : Bool := !(compFn pts b a)

/-- The index list `idx` after the angular `std::sort`. -/
def sortedIdx (pts : List Pt) : List Nat :=
  msort (sortLe pts) (List.range pts.length)

/-- The collinear-run reduction loop (lines 165-184).  The accumulator is the
`filtered` vector in reverse order, so its head is `filtered.last()`. -/
def filterLoop (pts : List Pt) (piv : Nat) (p0 : Pt) :
    List Nat → List Nat → List Nat
  | [], acc => acc
  | i :: rest, acc =>
    match acc with
    | [] => filterLoop pts piv p0 rest [i]
    | last :: tail =>
      if i = piv then filterLoop pts piv p0 rest (last :: tail)
      else
        let va : Pt := ⟨(nth pts last).x - p0.x, (nth pts last).y - p0.y⟩
        let vb : Pt := ⟨(nth pts i).x - p0.x, (nth pts i).y - p0.y⟩
        if (crossVec va vb).abs < eps then
          if dist2 p0 (nth pts last) < dist2 p0 (nth pts i) then
            filterLoop pts piv p0 rest (i :: tail)
          else filterLoop pts piv p0 rest (last :: tail)
        else filterLoop pts piv p0 rest (i :: last :: tail)

/-- The `filtered` vector of the scan (in its C++ order). -/
def filteredIdx (pts : List Pt) : List Nat :=
  (filterLoop pts (pivotIdx pts) (nth pts (pivotIdx pts)) (sortedIdx pts) []).reverse

/-- The inner `while` of the stack sweep (lines 198-209): pop while the
second-from-top, top and candidate `c` do not make a strict left turn.  The
stack is stored top-first. -/
def popPhase (pts : List Pt) (c : Nat) : List Nat → List Nat
  | t :: u :: rest =>
    if cross (nth pts u) (nth pts t) (nth pts c) ≤ 0 then
      popPhase pts c (u :: rest)
    else t :: u :: rest
  | st => st

/-- The stack sweep over the remaining candidates (lines 197-211). -/
def sweepLoop (pts : List Pt) : List Nat → List Nat → List Nat
  | [], st => st
  | c :: cs, st => sweepLoop pts cs (c :: popPhase pts c st)

/-- `DrawingWidget::computeGrahamScan`: the fast hull as a list of indices
into the input.  If fewer than 3 candidates survive the reduction they are
returned as-is, otherwise the stack sweep runs seeded with the first two. -/
def grahamHull (pts : List Pt) : List Nat :=
  match filteredIdx pts with
  | f0 :: f1 :: f2 :: rest => (sweepLoop pts (f2 :: rest) [f1, f0]).reverse
  | short => short

/-- Per-comparison cost of the sorting comparator: the C++ lambda increments
the counter only when neither argument is the pivot (`le a b` calls
`comp b a`). -/
def sortLeCost (pts : List Pt) (a b : Nat) : Nat :=
  if b = pivotIdx pts ∨ a = pivotIdx pts then 0 else 1

/-- Counting mirror of `filterLoop`: one increment per iteration that reaches
the cross-product computation. -/
def filterCntLoop (pts : List Pt) (piv : Nat) (p0 : Pt) :
    List Nat → List Nat → Nat
  | [], _ => 0
  | i :: rest, acc =>
    match acc with
    | [] => filterCntLoop pts piv p0 rest [i]
    | last :: tail =>
      if i = piv then filterCntLoop pts piv p0 rest (last :: tail)
      else
        let va : Pt := ⟨(nth pts last).x - p0.x, (nth pts last).y - p0.y⟩
        let vb : Pt := ⟨(nth pts i).x - p0.x, (nth pts i).y - p0.y⟩
        1 +
          (if (crossVec va vb).abs < eps then
            if dist2 p0 (nth pts last) < dist2 p0 (nth pts i) then
              filterCntLoop pts piv p0 rest (i :: tail)
            else filterCntLoop pts piv p0 rest (last :: tail)
          else filterCntLoop pts piv p0 rest (i :: last :: tail))

/-- Counting mirror of `popPhase`: one increment per `while` test performed
(including the final failing test). -/
def popCnt (pts : List Pt) (c : Nat) : List Nat → Nat
  | t :: u :: rest =>
    1 +
      (if cross (nth pts u) (nth pts t) (nth pts c) ≤ 0 then
        popCnt pts c (u :: rest)
      else 0)
  | _ => 0

/-- Counting mirror of `sweepLoop`. -/
def sweepCnt (pts : List Pt) : List Nat → List Nat → Nat
  | [], _ => 0
  | c :: cs, st => popCnt pts c st + sweepCnt pts cs (c :: popPhase pts c st)

/-- The iteration counter of the fast hull: `n - 1` pivot comparisons, plus
the sorting comparisons, plus the reduction tests, plus the stack tests. -/
def grahamIters (pts : List Pt) : Int :=
  (pts.length - 1 : Nat) +
    (msortCntFuel (sortLe pts) (sortLeCost pts)
      (List.range pts.length).length (List.range pts.length) : Int) +
    (filterCntLoop pts (pivotIdx pts) (nth pts (pivotIdx pts)) (sortedIdx pts) [] : Int) +
    (match filteredIdx pts with
     | f0 :: f1 :: f2 :: rest => (sweepCnt pts (f2 :: rest) [f1, f0] : Int)
     | _ => 0)

/-! ### Slow hull (`DrawingWidget::computeSlowConvexHull`) -/

/-- The inner `k` loop of the edge test (lines 228-235): classify every other
point against line `i -> j`, with early exit as soon as both a strictly
positive and a strictly negative point have been seen.  Returns the two side
flags and the number of counter increments. -/
def edgeLoop (pts : List Pt) (i j : Nat) :
    List Nat → Bool → Bool → Nat → Bool × Bool × Nat
  | [], pos, neg, cnt => (pos, neg, cnt)
  | k :: ks, pos, neg, cnt =>
    if k = i ∨ k = j then edgeLoop pts i j ks pos neg cnt
    else
      let c := cross (nth pts i) (nth pts j) (nth pts k)
      let pos' := if eps < c then true else pos
      let neg' := if eps < c then neg else if c < -eps then true else neg
      let cnt' := cnt + 1
      if pos' && neg' then (pos', neg', cnt')
      else edgeLoop pts i j ks pos' neg' cnt'

/-- Full scan of the edge test for the pair `(i, j)`. -/
def edgeScan (pts : List Pt) (i j : Nat) : Bool × Bool × Nat :=
  edgeLoop pts i j (List.range pts.length) false false 0

/-- The pair `(i, j)` is accepted as a hull edge iff not all of: a strictly
positive-side point and a strictly negative-side point were found
(line 236). -/
def acceptedPair (pts : List Pt) (i j : Nat) : Bool :=
  !((edgeScan pts i j).1 && (edgeScan pts i j).2.1)

/-- `v` is collected as a vertex iff it is an endpoint of some accepted pair
(the C++ inserts both directions of every accepted `i < j` pair into a set
and collects all endpoints). -/
def isVert (pts : List Pt) (v : Nat) : Bool :=
  (List.range pts.length).any fun j =>
    (decide (v < j) && acceptedPair pts v j) ||
      (decide (j < v) && acceptedPair pts j v)

/-- The collected vertices in ascending order (iteration order of the C++
`std::set<int>`). -/
def vertsList (pts : List Pt) : List Nat :=
  (List.range pts.length).filter (isVert pts)

/-- Arithmetic-mean centroid of a list of points (lines 271-274). -/
def centroidOf (ps : List Pt) : Pt :=
  ⟨(ps.foldl (fun (s : Q) (p : Pt) => s + p.x) 0).divNat ps.length,
   (ps.foldl (fun (s : Q) (p : Pt) => s + p.y) 0).divNat ps.length⟩

/-- The atan2 band of a vector, in increasing angular order of the bands:
`y < 0` gives angles in `(-pi, 0)`; `y = 0, x >= 0` (including the zero
vector) gives angle `0`; `y > 0` gives angles in `(0, pi)`; `y = 0, x < 0`
gives angle `pi`. -/
def qclassOf (v : Pt) : Nat :=
  if v.y < 0 then 0
  else if Q.eqv v.y 0 ∧ 0 ≤ v.x then 1
  else if 0 < v.y then 2
  else 3

/-- Exact embedding of `atan2(u.y, u.x) < atan2(v.y, v.x)`: compare bands
first; inside an open half-plane band compare by cross product; the two
horizontal bands are single angles, so members tie. -/
def angLtB (u v : Pt) : Bool :=
  decide (qclassOf u < qclassOf v) ||
    (decide (qclassOf u = qclassOf v) &&
      (decide (qclassOf u = 0) || decide (qclassOf u = 2)) &&
      decide ((0 : Q) < crossVec u v))

/-- `DrawingWidget::orderHullPoints`: order the collected indices by angle of
their point around the centroid (lines 266-287).  The `(angle, index)` array
is sorted by angle only; the stable merge sort keeps tied entries in
ascending index order. -/
def orderHullIdx (pts : List Pt) (verts : List Nat) : List Nat :=
  if verts.length ≤ 1 then verts
  else
    let c := centroidOf (verts.map (nth pts))
    let arr := verts.map fun v =>
      ((⟨(nth pts v).x - c.x, (nth pts v).y - c.y⟩ : Pt), v)
    (msort (fun a b => !(angLtB b.1 a.1)) arr).map Prod.snd

/-- `DrawingWidget::computeSlowConvexHull`: the slow hull as a list of
indices (empty for fewer than 3 points or when no pair is accepted). -/
def slowHullIdx (pts : List Pt) : List Nat :=
  if pts.length < 3 then []
  else orderHullIdx pts (vertsList pts)

/-- The iteration counter of the slow hull: one increment per executed inner
`k` iteration over all pairs `i < j`. -/
def slowIters (pts : List Pt) : Int :=
  ((List.range pts.length).map fun i =>
    (((List.range pts.length).filter fun j => i < j).map fun j =>
      ((edgeScan pts i j).2.2 : Int)).sum).sum

/-! ### Widget state, driver and mouse input -/

/-- The mutable state of `DrawingWidget` relevant to the algorithms. -/
structure WState where
  points : List Pt
  hullFast : List Nat
  hullSlow : List Nat
  iterationsFast : Int
  iterationsSlow : Int

/-- `DrawingWidget::runBothAlgorithms` (lines 113-129): clear both hulls and
counters; with fewer than 3 points stop there, otherwise run both algorithms
on the unchanged point list. -/
def runBothAlgorithms (s : WState) : WState :=
  if s.points.length < 3 then
    { s with hullFast := [], hullSlow := [], iterationsFast := 0, iterationsSlow := 0 }
  else
    { s with
      hullFast := grahamHull s.points
      hullSlow := slowHullIdx s.points
      iterationsFast := grahamIters s.points
      iterationsSlow := slowIters s.points }

/-- The left-button branch of `DrawingWidget::mousePressEvent`
(lines 19-32): append the pressed position and clear both hulls and
counters. -/
def mousePressLeft (s : WState) (p : Pt) : WState :=
  { points := s.points ++ [p]
    hullFast := []
    hullSlow := []
    iterationsFast := 0
    iterationsSlow := 0 }

/-! ### Concrete inputs used by the claims -/

/-- The square with one interior point from the specification's scenario. -/
def sqPts : List Pt := [⟨0, 0⟩, ⟨4, 0⟩, ⟨4, 4⟩, ⟨0, 4⟩, ⟨2, 2⟩]

/-- The three collinear points from the specification's scenario. -/
def colPts : List Pt := [⟨0, 0⟩, ⟨1, 1⟩, ⟨2, 2⟩]

/-- Three points with identical coordinates. -/
def samePts : List Pt := [⟨1, 1⟩, ⟨1, 1⟩, ⟨1, 1⟩]

/-- A thin band of points: `(0,0)` and `(5,0)` lie strictly inside the hull
of the four outer points, but every cross product against the line through
them has magnitude below the `1e-9` epsilon (`3/2^34 * 5 < 1e-9`), so the
edge test accepts pairs through the interior points. -/
def bandPts : List Pt :=
  [⟨0, 0⟩, ⟨5, 0⟩,
   ⟨10, ⟨3, 17179869184⟩⟩, ⟨10, ⟨-3, 17179869184⟩⟩,
   ⟨-1, ⟨3, 17179869184⟩⟩, ⟨-1, ⟨-3, 17179869184⟩⟩]

/-- Six points, one nudged `2^-34` below the axis: the nudged point becomes
the pivot and two sort comparisons fall inside the epsilon tie, after which
the stack sweep closes non-convexly across the wrap-around. -/
def tinyPts : List Pt :=
  [⟨4, 2⟩, ⟨5, 0⟩, ⟨2, 0⟩, ⟨3, 3⟩, ⟨0, 0⟩, ⟨3, ⟨-1, 17179869184⟩⟩]

/-! ### Permutation and sublist infrastructure -/

open List

lemma mergeFuel_perm (le : α → α → Bool) :
    ∀ (f : Nat) (xs ys : List α), mergeFuel le f xs ys ~ xs ++ ys := by
  intro f
  induction f with
  | zero => intro xs ys; exact List.Perm.refl _
  | succ f ih =>
    intro xs ys
    cases xs with
    | nil => simp [mergeFuel]
    | cons x xs =>
      cases ys with
      | nil => simp [mergeFuel]
      | cons y ys =>
        rw [mergeFuel]
        split
        · exact (ih xs (y :: ys)).cons x
        · exact ((ih (x :: xs) ys).cons y).trans List.perm_middle.symm

lemma msortFuel_perm (le : α → α → Bool) :
    ∀ (f : Nat) (l : List α), msortFuel le f l ~ l := by
  intro f
  induction f with
  | zero => intro l; exact List.Perm.refl _
  | succ f ih =>
    intro l
    match l with
    | [] => exact List.Perm.refl _
    | [a] => exact List.Perm.refl _
    | a :: b :: xs =>
      rw [msortFuel]
      refine ((mergeFuel_perm le _ _ _).trans ?_)
      refine (List.Perm.append (ih _) (ih _)).trans ?_
      rw [List.take_append_drop]

lemma msort_perm (le : α → α → Bool) (l : List α) : msort le l ~ l :=
  msortFuel_perm le l.length l

lemma filterLoop_sublist (pts : List Pt) (piv : Nat) (p0 : Pt) :
    ∀ (l acc C : List Nat), acc.reverse <+ C →
      (filterLoop pts piv p0 l acc).reverse <+ C ++ l := by
  intro l
  induction l with
  | nil =>
    intro acc C h
    simp only [filterLoop, List.append_nil]
    exact h
  | cons i rest ih =>
    intro acc C h
    cases acc with
    | nil =>
      rw [filterLoop]
      have h1 : ([i] : List Nat).reverse <+ C ++ [i] := by
        rw [List.reverse_singleton]
        exact List.sublist_append_right C [i]
      simpa [List.append_assoc] using ih [i] (C ++ [i]) h1
    | cons last tail =>
      have hkeep : (last :: tail).reverse <+ C ++ [i] :=
        h.trans (List.sublist_append_left C [i])
      have hrepl : (i :: tail).reverse <+ C ++ [i] := by
        have htail : tail.reverse <+ C := by
          rw [List.reverse_cons] at h
          exact (List.sublist_append_left _ _).trans h
        rw [List.reverse_cons]
        exact htail.append (List.Sublist.refl [i])
      have hpush : (i :: last :: tail).reverse <+ C ++ [i] := by
        rw [List.reverse_cons]
        exact h.append (List.Sublist.refl [i])
      simp only [filterLoop]
      split
      · simpa [List.append_assoc] using ih (last :: tail) (C ++ [i]) hkeep
      · split <;> try split
        all_goals
          first
            | exact (by simpa [List.append_assoc] using ih (i :: tail) (C ++ [i]) hrepl)
            | exact (by simpa [List.append_assoc] using ih (last :: tail) (C ++ [i]) hkeep)
            | exact (by
                simpa [List.append_assoc] using ih (i :: last :: tail) (C ++ [i]) hpush)

lemma popPhase_rev_sublist (pts : List Pt) (c : Nat) :
    ∀ st : List Nat, (popPhase pts c st).reverse <+ st.reverse := by
  intro st
  induction st with
  | nil => simp [popPhase]
  | cons t rest ih =>
    cases rest with
    | nil => simp [popPhase]
    | cons u rest2 =>
      rw [popPhase]
      split
      · rw [List.reverse_cons]
        exact ih.trans (List.sublist_append_left _ [t])
      · exact List.Sublist.refl _

lemma sweepLoop_rev_sublist (pts : List Pt) :
    ∀ (cs st C : List Nat), st.reverse <+ C →
      (sweepLoop pts cs st).reverse <+ C ++ cs := by
  intro cs
  induction cs with
  | nil => intro st C h; simpa [sweepLoop] using h
  | cons c cs ih =>
    intro st C h
    rw [sweepLoop]
    have h1 : (c :: popPhase pts c st).reverse <+ C ++ [c] := by
      rw [List.reverse_cons]
      exact ((popPhase_rev_sublist pts c st).trans h).append (List.Sublist.refl [c])
    simpa [List.append_assoc] using ih _ _ h1

lemma grahamHull_sublist (pts : List Pt) : grahamHull pts <+ sortedIdx pts := by
  have hf : filteredIdx pts <+ sortedIdx pts := by
    have h := filterLoop_sublist pts (pivotIdx pts) (nth pts (pivotIdx pts))
      (sortedIdx pts) [] [] (by simp)
    simpa [filteredIdx] using h
  rcases hm : filteredIdx pts with _ | ⟨f0, _ | ⟨f1, _ | ⟨f2, rest⟩⟩⟩
  · have hg : grahamHull pts = [] := by simp [grahamHull, hm]
    rw [hg]
    exact List.nil_sublist _
  · have hg : grahamHull pts = [f0] := by simp [grahamHull, hm]
    rw [hg]
    rw [hm] at hf
    exact hf
  · have hg : grahamHull pts = [f0, f1] := by simp [grahamHull, hm]
    rw [hg]
    rw [hm] at hf
    exact hf
  · have hg : grahamHull pts = (sweepLoop pts (f2 :: rest) [f1, f0]).reverse := by
      simp [grahamHull, hm]
    rw [hg]
    rw [hm] at hf
    have h2 := sweepLoop_rev_sublist pts (f2 :: rest) [f1, f0] [f0, f1] (by simp)
    exact h2.trans (by simpa using hf)

lemma orderHull_perm (pts : List Pt) (vs : List Nat) : orderHullIdx pts vs ~ vs := by
  rw [orderHullIdx]
  split
  · exact List.Perm.refl _
  · refine ((msort_perm _ _).map Prod.snd).trans ?_
    simp [List.map_map, Function.comp_def]

/-! ### The left-turn chain invariant of the stack sweep -/

/-- Every three consecutive entries of the (top-first) stack, read bottom to
top, make a strict left turn. -/
def ChainGT (pts : List Pt) : List Nat → Prop
  | [] => True
  | [_] => True
  | [_, _] => True
  | a :: b :: c :: rest =>
    0 < cross (nth pts c) (nth pts b) (nth pts a) ∧ ChainGT pts (b :: c :: rest)

lemma chainGT_tail {pts : List Pt} {a : Nat} {l : List Nat}
    (h : ChainGT pts (a :: l)) : ChainGT pts l := by
  cases l with
  | nil => trivial
  | cons b l2 =>
    cases l2 with
    | nil => trivial
    | cons c rest => exact h.2

lemma q_pos_of_not_nonpos {a : Q} (h : ¬ a ≤ 0) : 0 < a := Int.not_le.mp h

lemma popPhase_cons_chain {pts : List Pt} (c : Nat) :
    ∀ {st : List Nat}, ChainGT pts st → ChainGT pts (c :: popPhase pts c st) := by
  intro st
  induction st with
  | nil => intro _; trivial
  | cons t rest ih =>
    intro h
    cases rest with
    | nil => trivial
    | cons u rest2 =>
      rw [popPhase]
      split
      · exact ih (chainGT_tail h)
      · exact ⟨q_pos_of_not_nonpos (by assumption), h⟩

lemma sweepLoop_chain {pts : List Pt} :
    ∀ (cs st : List Nat), ChainGT pts st → ChainGT pts (sweepLoop pts cs st)
  | [], _, h => h
  | c :: cs, st, h =>
    sweepLoop_chain cs (c :: popPhase pts c st) (popPhase_cons_chain c h)

lemma chainGT_triples {pts : List Pt} :
    ∀ (l : List Nat), ChainGT pts l → ∀ i, i + 2 < l.length →
      0 < cross (nth pts (l.getD (i + 2) 0)) (nth pts (l.getD (i + 1) 0))
          (nth pts (l.getD i 0)) := by
  intro l
  induction l with
  | nil => intro _ i hi; simp at hi
  | cons a l ih =>
    intro h i hi
    cases i with
    | zero =>
      cases l with
      | nil => simp at hi
      | cons b l2 =>
        cases l2 with
        | nil => simp at hi
        | cons c rest =>
          simp only [List.getD_cons_zero, List.getD_cons_succ]
          exact h.1
    | succ j =>
      simp only [List.getD_cons_succ]
      exact ih (chainGT_tail h) j (by simp only [List.length_cons] at hi; omega)

lemma getD_rev {l : List Nat} {i : Nat} (h : i < l.length) :
    l.reverse.getD i 0 = l.getD (l.length - 1 - i) 0 := by
  rw [List.getD_eq_getElem l.reverse 0 (by simpa using h),
    List.getD_eq_getElem l 0 (by omega)]
  exact List.getElem_reverse (by simpa using h)

lemma chainGT_rev_triples {pts : List Pt} {l : List Nat} (h : ChainGT pts l) :
    ∀ i, i + 2 < l.reverse.length →
      0 < cross (nth pts (l.reverse.getD i 0)) (nth pts (l.reverse.getD (i + 1) 0))
          (nth pts (l.reverse.getD (i + 2) 0)) := by
  intro i hi
  rw [List.length_reverse] at hi
  rw [getD_rev (by omega), getD_rev (by omega), getD_rev (by omega)]
  have e1 : l.length - 1 - i = l.length - 3 - i + 2 := by omega
  have e2 : l.length - 1 - (i + 1) = l.length - 3 - i + 1 := by omega
  have e3 : l.length - 1 - (i + 2) = l.length - 3 - i := by omega
  rw [e1, e2, e3]
  exact chainGT_triples l h (l.length - 3 - i) (by omega)

/-! ### The claims -/

/-- C1: for the square-with-interior-point input the claim requires both
hulls to consist of exactly the four corner indices 0, 1, 2, 3 in
counter-clockwise order, excluding the interior index 4.  The slow hull does
return `[0, 1, 2, 3]`, but the fast hull returns `[1, 2, 3]`: the collinear
reduction replaces the pivot (corner 0) by the next sorted point, because
the vector from the pivot to itself is zero, which makes its cross product
with everything vanish and the pivot point is at distance 0.  This theorem
evaluates the code at the failing input. -/
theorem claim1_square_scenario :
    grahamHull sqPts = [1, 2, 3] ∧ slowHullIdx sqPts = [0, 1, 2, 3] := by
  constructor
  · decide
  · decide

/-- C2: the claim requires the fast and slow hulls to contain the same index
set for inputs whose hull vertices are in general position.  The square with
one interior point is such an input (its hull vertices are the four corners,
no three collinear), yet index 0 is in the slow hull and not in the fast
hull — the pivot-dropping slip of the collinear reduction. -/
theorem claim2_agreement_failure :
    ∃ v, v ∈ slowHullIdx sqPts ∧ v ∉ grahamHull sqPts := by
  refine ⟨0, by decide, by decide⟩

/-- C3: the claim requires the first element of the fast hull to be the
pivot (lowest y, ties by lowest x).  On the square scenario the pivot is
index 0, but the fast hull starts with index 1 (the pivot is dropped by the
collinear reduction). -/
theorem claim3_pivot_first_failure :
    pivotIdx sqPts = 0 ∧ (grahamHull sqPts).headD 99 = 1 := by
  constructor
  · decide
  · decide

/-- C4, counterexample: the convexity claim fails for both hulls.  On
`bandPts` the slow hull is `[5, 3, 1, 2, 4, 0]` and its consecutive triple
at positions 1, 2, 3 (point indices 3, 1, 2) has strictly negative
orientation (`-15/2^33`, beyond even the `1e-9` epsilon): the edge test
accepted pairs through the two interior points because all their cross
products fall below the epsilon.  On `tinyPts` the fast hull is
`[3, 1, 0, 4]` and its wrap-around triple at positions 2, 3, 0 (point
indices 0, 4, 3) has orientation `-6`. -/
theorem claim4_counterexample :
    slowHullIdx bandPts = [5, 3, 1, 2, 4, 0] ∧
      cross (nth bandPts 3) (nth bandPts 1) (nth bandPts 2) < 0 ∧
      grahamHull tinyPts = [3, 1, 0, 4] ∧
      cross (nth tinyPts 0) (nth tinyPts 4) (nth tinyPts 3) < 0 := by
  refine ⟨by decide, by decide, by decide, by decide⟩

/-- C4, amended: every consecutive NON-wrapping triple of the fast hull has
strictly positive orientation (hence orientation ≥ 0); the wrap-around
triples of the fast hull and the triples of the centroid-ordered slow hull
can have negative orientation on degenerate inputs (duplicate points, or
orientation magnitudes at the `1e-9` epsilon scale).  The positivity of the
non-wrapping triples is exactly the stack invariant: a candidate is only
pushed after popping until the top two entries and the candidate make a
strict left turn. -/
theorem claim4_amended_nonwrap_triples :
    ∀ (pts : List Pt) (i : Nat), i + 2 < (grahamHull pts).length →
      0 < cross (nth pts ((grahamHull pts).getD i 0))
          (nth pts ((grahamHull pts).getD (i + 1) 0))
          (nth pts ((grahamHull pts).getD (i + 2) 0)) := by
  intro pts i hi
  rcases hm : filteredIdx pts with _ | ⟨f0, _ | ⟨f1, _ | ⟨f2, rest⟩⟩⟩
  · have hg : grahamHull pts = [] := by simp [grahamHull, hm]
    rw [hg] at hi
    simp only [List.length_nil] at hi
    omega
  · have hg : grahamHull pts = [f0] := by simp [grahamHull, hm]
    rw [hg] at hi
    simp only [List.length_cons, List.length_nil] at hi
    omega
  · have hg : grahamHull pts = [f0, f1] := by simp [grahamHull, hm]
    rw [hg] at hi
    simp only [List.length_cons, List.length_nil] at hi
    omega
  · have hg : grahamHull pts = (sweepLoop pts (f2 :: rest) [f1, f0]).reverse := by
      simp [grahamHull, hm]
    rw [hg] at hi ⊢
    exact chainGT_rev_triples (sweepLoop_chain (f2 :: rest) [f1, f0] trivial) i hi

/-- Witness for the amended C4 at the square scenario: the fast hull is
`[1, 2, 3]` and its single non-wrapping triple turns strictly left. -/
theorem claim4_amended_nonwrap_triples_witness :
    0 + 2 < (grahamHull sqPts).length ∧
      0 < cross (nth sqPts ((grahamHull sqPts).getD 0 0))
          (nth sqPts ((grahamHull sqPts).getD 1 0))
          (nth sqPts ((grahamHull sqPts).getD 2 0)) :=
  ⟨by decide, claim4_amended_nonwrap_triples sqPts 0 (by decide)⟩

/-- C5: every index in either hull is a valid index into the input and no
index appears twice.  The fast hull is a sublist of the sorted index list,
which is a permutation of `range n`; the slow hull is a permutation of the
(filtered, hence duplicate-free and in-range) vertex list. -/
theorem claim5_hull_indices :
    ∀ pts : List Pt,
      ((grahamHull pts).all fun v => v < pts.length) = true ∧
        (grahamHull pts).Nodup ∧
        ((slowHullIdx pts).all fun v => v < pts.length) = true ∧
        (slowHullIdx pts).Nodup := by
  intro pts
  have hperm : sortedIdx pts ~ List.range pts.length := msort_perm _ _
  have hsub : grahamHull pts <+ sortedIdx pts := grahamHull_sublist pts
  have hrangeNd : (sortedIdx pts).Nodup := hperm.nodup_iff.mpr (List.nodup_range _)
  refine ⟨?_, hsub.nodup hrangeNd, ?_, ?_⟩
  · refine List.all_eq_true.mpr fun v hv => decide_eq_true ?_
    exact List.mem_range.mp (hperm.subset (hsub.subset hv))
  · refine List.all_eq_true.mpr fun v hv => decide_eq_true ?_
    by_cases h3 : pts.length < 3
    · simp [slowHullIdx, h3] at hv
    · rw [slowHullIdx, if_neg h3] at hv
      have hv2 := (orderHull_perm pts (vertsList pts)).subset hv
      exact List.mem_range.mp ((List.mem_of_mem_filter hv2))
  · by_cases h3 : pts.length < 3
    · simp [slowHullIdx, h3]
    · rw [slowHullIdx, if_neg h3]
      exact (orderHull_perm pts (vertsList pts)).nodup_iff.mpr
        ((List.nodup_range _).filter _)

/-- C6: the claim requires that for identical points each algorithm returns
at most one vertex.  The fast hull does return one vertex, but the slow hull
returns all three indices: for a pair of coincident points every cross
product is zero, so every pair passes the edge test and every index is
collected.  This theorem evaluates the code at the failing input. -/
theorem claim6_identical_points :
    slowHullIdx samePts = [0, 1, 2] ∧ grahamHull samePts = [0] := by
  constructor
  · decide
  · decide

/-- C7: for the three collinear points the fast hull reduces to the single
far extreme `[2]` (at most 2 indices, each an extreme), the edge test
accepts every pair (no pair sees strictly positive and strictly negative
points), and the slow hull returns all three indices in centroid-angle
order. -/
theorem claim7_collinear_scenario :
    grahamHull colPts = [2] ∧ slowHullIdx colPts = [0, 1, 2] ∧
      acceptedPair colPts 0 1 = true ∧ acceptedPair colPts 0 2 = true ∧
      acceptedPair colPts 1 2 = true := by
  refine ⟨by decide, by decide, by decide, by decide, by decide⟩

/-- C8: a run resets both hulls and counters regardless of their prior
values — the outputs depend only on the point list — and with fewer than 3
points it returns with empty hulls and zero counters. -/
theorem claim8_driver_reset :
    ∀ s t : WState, s.points = t.points →
      ((runBothAlgorithms s).hullFast = (runBothAlgorithms t).hullFast ∧
        (runBothAlgorithms s).hullSlow = (runBothAlgorithms t).hullSlow ∧
        (runBothAlgorithms s).iterationsFast = (runBothAlgorithms t).iterationsFast ∧
        (runBothAlgorithms s).iterationsSlow = (runBothAlgorithms t).iterationsSlow) ∧
      (s.points.length < 3 →
        (runBothAlgorithms s).hullFast = [] ∧ (runBothAlgorithms s).hullSlow = [] ∧
        (runBothAlgorithms s).iterationsFast = 0 ∧
        (runBothAlgorithms s).iterationsSlow = 0) := by
  intro s t hpt
  constructor
  · by_cases h3 : s.points.length < 3
    · have h3t : t.points.length < 3 := hpt ▸ h3
      simp [runBothAlgorithms, h3, h3t]
    · have h3t : ¬ t.points.length < 3 := hpt ▸ h3
      simp [runBothAlgorithms, h3, h3t, hpt]
  · intro h3
    simp [runBothAlgorithms, h3]

/-- Witness for C8 at a one-point state with stale hulls and counters. -/
theorem claim8_driver_reset_witness :
    (runBothAlgorithms ⟨[⟨0, 0⟩], [7], [8], 5, 6⟩).hullFast =
        (runBothAlgorithms ⟨[⟨0, 0⟩], [], [], 0, 0⟩).hullFast ∧
      (runBothAlgorithms ⟨[⟨0, 0⟩], [7], [8], 5, 6⟩).iterationsFast = 0 :=
  ⟨(claim8_driver_reset ⟨[⟨0, 0⟩], [7], [8], 5, 6⟩ ⟨[⟨0, 0⟩], [], [], 0, 0⟩ rfl).1.1,
    ((claim8_driver_reset ⟨[⟨0, 0⟩], [7], [8], 5, 6⟩ ⟨[⟨0, 0⟩], [], [], 0, 0⟩ rfl).2
      (by decide)).2.2.1⟩

/-- C9: a run never modifies the point list — in the embedding
`runBothAlgorithms` keeps `points` unchanged in both branches, mirroring the
source, which only reads `points` during both algorithms. -/
theorem claim9_points_immutable :
    ∀ s : WState, (runBothAlgorithms s).points = s.points := by
  intro s
  rw [runBothAlgorithms]
  split <;> rfl

/-- C10: a left-button press appends the position to the point list (leaving
the existing prefix unchanged) and clears both hulls and both counters. -/
theorem claim10_add_point_reset :
    ∀ (s : WState) (p : Pt),
      (mousePressLeft s p).points = s.points ++ [p] ∧
        (mousePressLeft s p).hullFast = [] ∧ (mousePressLeft s p).hullSlow = [] ∧
        (mousePressLeft s p).iterationsFast = 0 ∧
        (mousePressLeft s p).iterationsSlow = 0 :=
  fun _ _ => ⟨rfl, rfl, rfl, rfl, rfl⟩

end ConvexHull
